import Mathlib

/-!
Verification development for the `ftkit` utility library.

The core of the repository is a minimal `OnceCell<T>` (src/args.rs): a
lazily-initialized single-assignment cell guarded by an atomic tri-state tag
(`UNINIT = 0`, `IN_PROGRESS = 1`, `INIT = 2`).  We model the concurrent
behaviour of `OnceCell::get_or_init` as a labeled transition system over a
finite set of threads, each executing the retry loop of the source code, and
prove the protocol invariants the specification claims.

The consumer surface (`Args`, `ArgsIter`), the bounded random number
generator (src/rand.rs) and the stdin trimming routine (src/input.rs) are
embedded as executable functions.
-/

namespace Ftkit

/-- State tag constant from src/args.rs: cell not yet initialized. -/
def UNINIT : Nat := 0

/-- State tag constant from src/args.rs: cell currently being initialized. -/
def IN_PROGRESS : Nat := 1

/-- State tag constant from src/args.rs: cell initialized. -/
def INIT : Nat := 2

/-- Control location of one thread executing `OnceCell::get_or_init`.

* `start`: about to attempt the `compare_exchange_weak(UNINIT, IN_PROGRESS)`
  (also the location a spinning thread returns to after `yield_now`).
* `running`: the thread won the CAS and its producer closure `f` is executing.
* `wrote v`: the producer returned `v`, the thread performed `*slot = f()` and
  set `guard.new_state = INIT`, but the guard has not yet stored `INIT`.
* `done r`: the call returned; `r` is the value read through the returned
  reference (`none` would mean reading an uninitialized slot).
* `aborted`: the producer panicked; the guard restored `UNINIT` and the panic
  propagated out of `get_or_init`. -/
inductive Phase (T : Type) where
  | start : Phase T
  | running : Phase T
  | wrote : T → Phase T
  | done : Option T → Phase T
  | aborted : Phase T
deriving DecidableEq, Repr

/-- Whether a thread currently holds the exclusive write permission on the
slot (it is between winning the CAS and releasing the state). -/
def Phase.isWriter {T : Type} : Phase T → Bool
  | .running => true
  | .wrote _ => true
  | _ => false

/-- Whether a thread is currently inside the producer closure. -/
def Phase.isRunning {T : Type} : Phase T → Bool
  | .running => true
  | _ => false

/-- Global state of one `OnceCell<T>` together with the threads calling
`get_or_init` on it.

* `tag` models the `AtomicU8` field `state`.
* `slot` models the `MaybeUninit<UnsafeCell<T>>` field `value`
  (`none` = uninitialized bytes).
* `threads` holds the control location of each calling thread.
* `invoked`, `succ`, `abrt` are history counters: producer invocations
  started, producer invocations that returned normally, and producer
  invocations that aborted (panicked). -/
structure SysState (T : Type) where
  tag : Nat
  slot : Option T
  threads : List (Phase T)
  invoked : Nat
  succ : Nat
  abrt : Nat
deriving DecidableEq, Repr

/-- Number of threads currently inside a producer closure. -/
def SysState.nRunning {T : Type} (s : SysState T) : Nat :=
  s.threads.countP Phase.isRunning

/-- A fresh cell with `n` threads about to call `get_or_init`
(`OnceCell::new` sets `state: AtomicU8::new(UNINIT)` and leaves the value
uninitialized). -/
def initState (T : Type) (n : Nat) : SysState T :=
  { tag := UNINIT
    slot := none
    threads := List.replicate n Phase.start
    invoked := 0
    succ := 0
    abrt := 0 }

/-- One atomic step of thread `i` in `OnceCell::get_or_init`.  Each
constructor corresponds to one branch of the source code's `loop`/`match`:

* `casWin`: `compare_exchange_weak(UNINIT, IN_PROGRESS)` succeeds, the thread
  enters the producer (`Ok(_)` branch, invocation of `f` begins).
* `casFailInit`: the CAS fails with observed value `INIT`; the thread reads
  the slot and returns (`Err(INIT)` branch).
* `casSpin`: the CAS fails with `IN_PROGRESS` or spuriously fails with
  `UNINIT`; the thread yields and retries (`Err(IN_PROGRESS | UNINIT)`).
* `prodOk`: the producer returns `v`; the thread performs `*slot = f()` and
  arms the guard with `new_state = INIT`.
* `prodAbort`: the producer panics; the guard's `Drop` stores `UNINIT` and
  the panic propagates.
* `publish`: the winner returns; the guard's `Drop` stores `INIT` and the
  reference to the freshly written slot is handed out. -/
inductive Step (T : Type) : Nat → SysState T → SysState T → Prop where
  | casWin (i : Nat) (s : SysState T) :
      s.threads.get? i = some .start → s.tag = UNINIT →
      Step T i s { s with tag := IN_PROGRESS,
                          threads := s.threads.set i .running,
                          invoked := s.invoked + 1 }
  | casFailInit (i : Nat) (s : SysState T) :
      s.threads.get? i = some .start → s.tag = INIT →
      Step T i s { s with threads := s.threads.set i (.done s.slot) }
  | casSpin (i : Nat) (s : SysState T) :
      s.threads.get? i = some .start → (s.tag = UNINIT ∨ s.tag = IN_PROGRESS) →
      Step T i s s
  | prodOk (i : Nat) (s : SysState T) (v : T) :
      s.threads.get? i = some .running →
      Step T i s { s with slot := some v,
                          threads := s.threads.set i (.wrote v),
                          succ := s.succ + 1 }
  | prodAbort (i : Nat) (s : SysState T) :
      s.threads.get? i = some .running →
      Step T i s { s with tag := UNINIT,
                          threads := s.threads.set i .aborted,
                          abrt := s.abrt + 1 }
  | publish (i : Nat) (s : SysState T) (v : T) :
      s.threads.get? i = some (.wrote v) →
      Step T i s { s with tag := INIT,
                          threads := s.threads.set i (.done (some v)) }

/-- Finitely many interleaved steps by arbitrary threads. -/
inductive Reach (T : Type) : SysState T → SysState T → Prop where
  | refl (s : SysState T) : Reach T s s
  | tail {s t u : SysState T} {i : Nat} :
      Reach T s t → Step T i t u → Reach T s u

/-- The argument cache of `Args` (src/args.rs), in its single-threaded
functional projection: the `OnceCell<Box<[Box<str>]>>` field `cache` is
`none` while uninitialized and `some v` once initialized (the `UNINIT` and
`INIT` tags of the cell; the transient `IN_PROGRESS` tag never survives a
completed call, see the `Step` model above). -/
structure Args where
  cache : Option (List String)

/-- `Args::force`: `get_or_init` on the cache with the producer that collects
the process argument strings `argv` (`std::env::args().map(String::into_boxed_str).collect()`).
Returns the updated cache together with the cached argument list. -/
def Args.force (a : Args) (argv : List String) : Args × List String :=
  match a.cache with
  | some v => (a, v)
  | none => (⟨some argv⟩, argv)

/-- `Args::len`: forces the cache and returns the number of arguments. -/
def Args.len (a : Args) (argv : List String) : Args × Nat :=
  let fv := a.force argv
  (fv.1, fv.2.length)

/-- `ArgsIter<'a>` (src/args.rs): an iterator over the cached argument slice,
modeled by the list of elements not yet yielded. -/
structure ArgsIter where
  inner : List String

/-- `Iterator::next` for `ArgsIter`: yields the next argument, if any. -/
def ArgsIter.next (it : ArgsIter) : Option (String × ArgsIter) :=
  match it.inner with
  | [] => none
  | x :: xs => some (x, ⟨xs⟩)

/-- `Iterator::nth` for `ArgsIter`: `self.inner.nth(n).map(Box::as_ref)` —
the `n`-th remaining element, or `None` when out of range. -/
def ArgsIter.nth (it : ArgsIter) (n : Nat) : Option String :=
  it.inner.get? n

/-- The full sequence an `ArgsIter` yields (see `ArgsIter.drain_next` for the
characterization through repeated `next` calls). -/
def ArgsIter.drain (it : ArgsIter) : List String :=
  it.inner

/-- `<&Args as IntoIterator>::into_iter`: forces the cache and hands out an
iterator over the cached slice. -/
def Args.intoIter (a : Args) (argv : List String) : Args × ArgsIter :=
  let fv := a.force argv
  (fv.1, ⟨fv.2⟩)

/-- `i32::MIN`. -/
def I32_MIN : Int := -2147483648

/-- `i32::MAX`. -/
def I32_MAX : Int := 2147483647

/-- `std::ops::Bound<&i32>`, as consumed by `random_number` (src/rand.rs). -/
inductive RangeBound where
  | included (n : Int)
  | excluded (n : Int)
  | unbounded

/-- The payload of a bound is an actual `i32` value. -/
def RangeBound.valid : RangeBound → Prop
  | .included n => I32_MIN ≤ n ∧ n ≤ I32_MAX
  | .excluded n => I32_MIN ≤ n ∧ n ≤ I32_MAX
  | .unbounded => True

/-- The `min` computation of `random_number`: `Excluded` uses
`n.checked_add(1).expect(..)` (`none` models the panic), `Included` uses `n`,
`Unbounded` uses `i32::MIN`. -/
def startMin : RangeBound → Option Int
  | .excluded n => if I32_MAX < n + 1 then none else some (n + 1)
  | .included n => some n
  | .unbounded => some I32_MIN

/-- The `max` computation of `random_number`: `Excluded` uses
`n.checked_sub(1).expect(..)`, `Included` uses `n`, `Unbounded` uses
`i32::MAX`. -/
def endMax : RangeBound → Option Int
  | .excluded n => if n - 1 < I32_MIN then none else some (n - 1)
  | .included n => some n
  | .unbounded => some I32_MAX

/-- The value of an integer reinterpreted as a `u32` bit pattern
(`as u32` on an `i32`, and the result of `u32` wrapping arithmetic). -/
def wrap32 (x : Int) : Int :=
  x % 4294967296

/-- `as i32` applied to a `u32` bit pattern: two's-complement reading. -/
def asI32 (x : Int) : Int :=
  if wrap32 x < 2147483648 then wrap32 x else wrap32 x - 4294967296

/-- `random_number(range)` (src/rand.rs), with the range given by its two
bounds and the raw draw `next_u64() as i32` passed as `raw`.  `none` models a
panic (`expect` on an overflowing bound normalization, or the
`assert!(min <= max)` on an empty range).  The non-full-range arm computes
`range_size = (max as u32).wrapping_sub(min as u32).wrapping_add(1)` and
returns `(raw as u32).wrapping_rem(range_size).wrapping_add(min as u32) as
i32`. -/
def drawIn (mn mx raw : Int) : Int :=
  if mn = I32_MIN ∧ mx = I32_MAX then raw
  else asI32 (wrap32 raw % wrap32 (wrap32 (wrap32 mx - wrap32 mn) + 1) + wrap32 mn)

/-- See `drawIn` for the two result arms after the bound checks. -/
def random_number (sb eb : RangeBound) (raw : Int) : Option Int :=
  match startMin sb, endMax eb with
  | some mn, some mx => if mn ≤ mx then some (drawIn mn mx raw) else none
  | _, _ => none

/-- `char::is_whitespace` (the Unicode `White_Space` property), as used by
the trimming in `read_line` (src/input.rs). -/
def rustIsWhitespace (c : Char) : Bool :=
  let v := c.toNat
  v = 0x09 || v = 0x0A || v = 0x0B || v = 0x0C || v = 0x0D || v = 0x20 ||
  v = 0x85 || v = 0xA0 || v = 0x1680 || (0x2000 ≤ v && v ≤ 0x200A) ||
  v = 0x2028 || v = 0x2029 || v = 0x202F || v = 0x205F || v = 0x3000

/-- The UTF-8 encoded length of a character. -/
def utf8Len (c : Char) : Nat :=
  if c.toNat < 0x80 then 1
  else if c.toNat < 0x800 then 2
  else if c.toNat < 0x10000 then 3
  else 4

/-- The UTF-8 encoding of one character. -/
def utf8Bytes (c : Char) : List Nat :=
  let n := c.toNat
  if n < 0x80 then [n]
  else if n < 0x800 then [0xC0 + n / 64, 0x80 + n % 64]
  else if n < 0x10000 then [0xE0 + n / 4096, 0x80 + n / 64 % 64, 0x80 + n % 64]
  else [0xF0 + n / 262144, 0x80 + n / 4096 % 64, 0x80 + n / 64 % 64, 0x80 + n % 64]

/-- The UTF-8 byte buffer of a string (Rust `String` contents). -/
def encodeUtf8 (s : List Char) : List Nat :=
  (s.map utf8Bytes).join

/-- UTF-8 decoding with explicit fuel (any fuel at least the byte count
works); `none` on ill-formed input. -/
def decodeUtf8Fuel : Nat → List Nat → Option (List Char)
  | _, [] => some []
  | 0, _ :: _ => none
  | fuel + 1, b :: rest =>
    if b < 0x80 then
      (decodeUtf8Fuel fuel rest).map (fun cs => Char.ofNat b :: cs)
    else if 0xC0 ≤ b ∧ b < 0xE0 then
      match rest with
      | b2 :: rest2 =>
        if 0x80 ≤ b2 ∧ b2 < 0xC0 then
          (decodeUtf8Fuel fuel rest2).map
            (fun cs => Char.ofNat ((b - 0xC0) * 64 + (b2 - 0x80)) :: cs)
        else none
      | [] => none
    else if 0xE0 ≤ b ∧ b < 0xF0 then
      match rest with
      | b2 :: b3 :: rest3 =>
        if (0x80 ≤ b2 ∧ b2 < 0xC0) ∧ (0x80 ≤ b3 ∧ b3 < 0xC0) then
          (decodeUtf8Fuel fuel rest3).map
            (fun cs => Char.ofNat ((b - 0xE0) * 4096 + (b2 - 0x80) * 64 + (b3 - 0x80)) :: cs)
        else none
      | _ => none
    else if 0xF0 ≤ b ∧ b < 0xF8 then
      match rest with
      | b2 :: b3 :: b4 :: rest4 =>
        if (0x80 ≤ b2 ∧ b2 < 0xC0) ∧ (0x80 ≤ b3 ∧ b3 < 0xC0) ∧ (0x80 ≤ b4 ∧ b4 < 0xC0) then
          (decodeUtf8Fuel fuel rest4).map
            (fun cs => Char.ofNat ((b - 0xF0) * 262144 + (b2 - 0x80) * 4096 +
              (b3 - 0x80) * 64 + (b4 - 0x80)) :: cs)
        else none
      | _ => none
    else none

/-- UTF-8 decoding of a byte buffer. -/
def decodeUtf8 (bs : List Nat) : Option (List Char) :=
  decodeUtf8Fuel bs.length bs

/-- `result.find(|c: char| !c.is_whitespace())` of `read_line`: the byte
index of the first non-whitespace character, walking the characters while
accumulating their UTF-8 lengths. -/
def findStartByte : List Char → Nat → Option Nat
  | [], _ => none
  | c :: cs, acc =>
    if rustIsWhitespace c then findStartByte cs (acc + utf8Len c) else some acc

/-- `result.rfind(|c: char| !c.is_whitespace())` of `read_line`: the byte
index of the last non-whitespace character. -/
def rfindLastNonWs : List Char → Nat → Option Nat → Option Nat
  | [], _, best => best
  | c :: cs, acc, best =>
    rfindLastNonWs cs (acc + utf8Len c)
      (if rustIsWhitespace c then best else some acc)

/-- `str::is_char_boundary`: true at 0; at the end of the buffer; and at any
byte that is not a UTF-8 continuation byte. -/
def isCharBoundary (bytes : List Nat) (i : Nat) : Bool :=
  if i = 0 then true
  else
    match bytes.get? i with
    | none => decide (i = bytes.length)
    | some b => decide (b < 0x80 ∨ 0xC0 ≤ b)

/-- `String::truncate(new_len)`: a no-op when `new_len` exceeds the length,
otherwise keeps the first `new_len` bytes — and panics (`none`) when
`new_len` is not a character boundary. -/
def stringTruncate (bytes : List Nat) (newLen : Nat) : Option (List Nat) :=
  if newLen ≤ bytes.length then
    if isCharBoundary bytes newLen then some (bytes.take newLen) else none
  else some bytes

/-- The byte buffer after `result.as_bytes_mut().copy_within(start.., 0)`:
positions `[0, len-start)` receive the old bytes `[start, len)`, positions
`[len-start, len)` keep their old contents. -/
def copyWithinFrom (bytes : List Nat) (start : Nat) : List Nat :=
  bytes.drop start ++ bytes.drop (bytes.length - start)

/-- The trimming pipeline of `read_line` (src/input.rs) applied to the line
`line` just read into `result` (including any trailing newline).  Returns the
final byte buffer of `result`, or `none` if the code panics. -/
def read_line (line : List Char) : Option (List Nat) :=
  let bytes := encodeUtf8 line
  let start := (findStartByte line 0).getD 0
  let bytes2 := copyWithinFrom bytes start
  match stringTruncate bytes2 (bytes.length - start) with
  | none => none
  | some bytes3 =>
    match decodeUtf8 bytes3 with
    | none => none
    | some chars3 =>
      let e := (rfindLastNonWs chars3 0 none).getD bytes3.length
      let e2 :=
        match bytes3.get? e with
        | some b =>
          if b &&& 0x80 = 0 then e + 1
          else if b &&& 0xE0 = 0xC0 then e + 2
          else if b &&& 0xF0 = 0xE0 then e + 3
          else if b &&& 0xF8 = 0xF0 then e + 4
          else e
        | none => e
      stringTruncate bytes3 e2

/-- Protocol invariant of the `OnceCell` state machine: the tag stays in the
three declared states, at most one thread ever holds the transitional write
permission (and exactly one does iff the tag is `IN_PROGRESS`), the slot is
written only by that thread, a tag of `INIT` guarantees an initialized slot,
every returned reference reads the initialized slot, and the history counters
record that at most one producer invocation ever completed successfully. -/
structure Inv {T : Type} (s : SysState T) : Prop where
  tagLe : s.tag ≤ 2
  uniqueWriter : ∀ j k pj pk, s.threads.get? j = some pj → s.threads.get? k = some pk →
    pj.isWriter = true → pk.isWriter = true → j = k
  tagIffWriter : s.tag = IN_PROGRESS ↔ ∃ j p, s.threads.get? j = some p ∧ p.isWriter = true
  uninitSlot : s.tag = UNINIT → s.slot = none
  runningSlot : ∀ j, s.threads.get? j = some .running → s.slot = none
  wroteSlot : ∀ j v, s.threads.get? j = some (.wrote v) → s.slot = some v
  doneSlot : ∀ j r, s.threads.get? j = some (.done r) → s.tag = INIT ∧ r = s.slot
  initSlot : s.tag = INIT → ∃ v, s.slot = some v
  succZero : s.slot = none → s.succ = 0
  succOne : ∀ v, s.slot = some v → s.succ = 1
  invokedEq : s.invoked = s.succ + s.abrt + s.nRunning

theorem Reach.single {T : Type} {s t : SysState T} {i : Nat}
    (h : Step T i s t) : Reach T s t :=
  Reach.tail (Reach.refl s) h

theorem Reach.trans {T : Type} {s t u : SysState T}
    (h₁ : Reach T s t) (h₂ : Reach T t u) : Reach T s u := by
  induction h₂ with
  | refl => exact h₁
  | tail _ hstep ih => exact Reach.tail ih hstep

theorem get?_set_self {α : Type} {l : List α} {i : Nat} {a : α}
    (h : l.get? i = some a) (b : α) : (l.set i b).get? i = some b := by
  obtain ⟨hlen, -⟩ := List.get?_eq_some.mp h
  exact List.get?_set_eq_of_lt b hlen

theorem countP_set_get? {α : Type} (p : α → Bool) {l : List α} {i : Nat} {a : α}
    (h : l.get? i = some a) (b : α) :
    (l.set i b).countP p + (if p a then 1 else 0)
      = l.countP p + (if p b then 1 else 0) := by
  induction l generalizing i with
  | nil => simp at h
  | cons x xs ih =>
    cases i with
    | zero =>
      simp only [List.get?] at h
      cases h
      simp only [List.set, List.countP_cons]
      omega
    | succ j =>
      simp only [List.get?] at h
      have := ih h
      simp only [List.set, List.countP_cons]
      omega


theorem Inv.writerTag {T : Type} {s : SysState T} (hI : Inv s) {j : Nat} {p : Phase T}
    (hj : s.threads.get? j = some p) (hw : p.isWriter = true) : s.tag = IN_PROGRESS :=
  hI.tagIffWriter.mpr ⟨j, p, hj, hw⟩

theorem Inv.noWriter {T : Type} {s : SysState T} (hI : Inv s) (h : s.tag ≠ IN_PROGRESS) :
    ∀ j p, s.threads.get? j = some p → p.isWriter = true → False :=
  fun j p hj hw => h (hI.writerTag hj hw)

theorem inv_initState (T : Type) (n : Nat) : Inv (initState T n) := by
  have hget : ∀ j p, (List.replicate n (Phase.start (T := T))).get? j = some p → p = .start := by
    intro j p hj
    rw [List.get?_eq_getElem?, List.getElem?_replicate] at hj
    split at hj
    · exact (Option.some.injEq _ _ ▸ hj).symm
    · exact absurd hj (by simp)
  refine ⟨by simp [initState, UNINIT], ?_, ?_, fun _ => rfl, fun _ _ => rfl, ?_, ?_,
    ?_, fun _ => rfl, ?_, ?_⟩
  · intro j k pj pk hj hk wj wk
    have := hget j pj hj
    subst this
    simp [Phase.isWriter] at wj
  · constructor
    · intro h
      simp [initState, UNINIT, IN_PROGRESS] at h
    · rintro ⟨j, p, hj, hw⟩
      have := hget j p hj
      subst this
      simp [Phase.isWriter] at hw
  · intro j v hj
    have := hget j (.wrote v) hj
    simp at this
  · intro j r hj
    have := hget j (.done r) hj
    simp at this
  · intro h
    simp [initState, UNINIT, INIT] at h
  · intro v hv
    simp [initState] at hv
  · show (0 : Nat) = 0 + 0 + (List.replicate n (Phase.start (T := T))).countP Phase.isRunning
    have : (List.replicate n (Phase.start (T := T))).countP Phase.isRunning = 0 := by
      rw [List.countP_eq_zero]
      intro p hp
      rw [List.eq_of_mem_replicate hp]
      simp [Phase.isRunning]
    omega

theorem inv_step {T : Type} {i : Nat} {s s' : SysState T}
    (hI : Inv s) (hstep : Step T i s s') : Inv s' := by
  cases hstep with
  | casWin h1 h2 =>
    have hnoW := hI.noWriter (by rw [h2]; decide)
    have hslot : s.slot = none := hI.uninitSlot h2
    refine ⟨show IN_PROGRESS ≤ 2 by decide, ?_, ?_, ?_, ?_, ?_, ?_, ?_, ?_, ?_, ?_⟩
    · intro j k pj pk hj hk wj wk
      have hj' : (s.threads.set i Phase.running).get? j = some pj := hj
      have hk' : (s.threads.set i Phase.running).get? k = some pk := hk
      by_cases hij : i = j
      · by_cases hik : i = k
        · rw [← hij, ← hik]
        · rw [List.get?_set_ne _ _ hik] at hk'
          exact (hnoW k pk hk' wk).elim
      · rw [List.get?_set_ne _ _ hij] at hj'
        exact (hnoW j pj hj' wj).elim
    · exact iff_of_true rfl ⟨i, .running, get?_set_self h1 _, rfl⟩
    · intro h
      exact absurd h (show ¬(IN_PROGRESS = UNINIT) by decide)
    · intro j hj
      exact hslot
    · intro j v hj
      have hj' : (s.threads.set i Phase.running).get? j = some (.wrote v) := hj
      by_cases hij : i = j
      · rw [← hij, get?_set_self h1] at hj'
        exact absurd hj' (by simp)
      · rw [List.get?_set_ne _ _ hij] at hj'
        exact (hnoW j _ hj' rfl).elim
    · intro j r hj
      have hj' : (s.threads.set i Phase.running).get? j = some (.done r) := hj
      by_cases hij : i = j
      · rw [← hij, get?_set_self h1] at hj'
        exact absurd hj' (by simp)
      · rw [List.get?_set_ne _ _ hij] at hj'
        obtain ⟨ht, -⟩ := hI.doneSlot j r hj'
        exact absurd (h2.symm.trans ht) (by decide)
    · intro h
      exact absurd h (show ¬(IN_PROGRESS = INIT) by decide)
    · intro h
      exact hI.succZero h
    · intro v hv
      exact hI.succOne v hv
    · have hc := countP_set_get? Phase.isRunning h1 Phase.running
      simp [Phase.isRunning] at hc
      have he := hI.invokedEq
      unfold SysState.nRunning at he ⊢
      show s.invoked + 1 = s.succ + s.abrt + (s.threads.set i Phase.running).countP Phase.isRunning
      omega
  | casFailInit h1 h2 =>
    have hnoW := hI.noWriter (by rw [h2]; decide)
    refine ⟨hI.tagLe, ?_, ?_, ?_, ?_, ?_, ?_, hI.initSlot, hI.succZero, hI.succOne, ?_⟩
    · intro j k pj pk hj hk wj wk
      have hj' : (s.threads.set i (Phase.done s.slot)).get? j = some pj := hj
      by_cases hij : i = j
      · rw [← hij, get?_set_self h1] at hj'
        cases hj'
        simp [Phase.isWriter] at wj
      · rw [List.get?_set_ne _ _ hij] at hj'
        exact (hnoW j pj hj' wj).elim
    · refine iff_of_false (by rw [h2]; decide) ?_
      rintro ⟨j, p, hj, hw⟩
      have hj' : (s.threads.set i (Phase.done s.slot)).get? j = some p := hj
      by_cases hij : i = j
      · rw [← hij, get?_set_self h1] at hj'
        cases hj'
        simp [Phase.isWriter] at hw
      · rw [List.get?_set_ne _ _ hij] at hj'
        exact hnoW j p hj' hw
    · intro h
      exact absurd (h2.symm.trans h) (by decide)
    · intro j hj
      have hj' : (s.threads.set i (Phase.done s.slot)).get? j = some .running := hj
      by_cases hij : i = j
      · rw [← hij, get?_set_self h1] at hj'
        exact absurd hj' (by simp)
      · rw [List.get?_set_ne _ _ hij] at hj'
        exact hI.runningSlot j hj'
    · intro j v hj
      have hj' : (s.threads.set i (Phase.done s.slot)).get? j = some (.wrote v) := hj
      by_cases hij : i = j
      · rw [← hij, get?_set_self h1] at hj'
        exact absurd hj' (by simp)
      · rw [List.get?_set_ne _ _ hij] at hj'
        exact hI.wroteSlot j v hj'
    · intro j r hj
      have hj' : (s.threads.set i (Phase.done s.slot)).get? j = some (.done r) := hj
      by_cases hij : i = j
      · rw [← hij, get?_set_self h1] at hj'
        cases hj'
        exact ⟨h2, rfl⟩
      · rw [List.get?_set_ne _ _ hij] at hj'
        exact hI.doneSlot j r hj'
    · have hc := countP_set_get? Phase.isRunning h1 (Phase.done s.slot)
      simp [Phase.isRunning] at hc
      have he := hI.invokedEq
      unfold SysState.nRunning at he ⊢
      show s.invoked = s.succ + s.abrt + (s.threads.set i (Phase.done s.slot)).countP Phase.isRunning
      omega
  | casSpin h1 h2 =>
    exact hI
  | prodOk v h1 =>
    have htag : s.tag = IN_PROGRESS := hI.writerTag h1 rfl
    have hslot := hI.runningSlot i h1
    have hsucc := hI.succZero hslot
    refine ⟨hI.tagLe, ?_, ?_, ?_, ?_, ?_, ?_, ?_, ?_, ?_, ?_⟩
    · intro j k pj pk hj hk wj wk
      have hj' : (s.threads.set i (Phase.wrote v)).get? j = some pj := hj
      have hk' : (s.threads.set i (Phase.wrote v)).get? k = some pk := hk
      by_cases hij : i = j
      · by_cases hik : i = k
        · rw [← hij, ← hik]
        · rw [List.get?_set_ne _ _ hik] at hk'
          exact absurd (hI.uniqueWriter k i pk .running hk' h1 wk rfl) fun e => hik e.symm
      · rw [List.get?_set_ne _ _ hij] at hj'
        exact absurd (hI.uniqueWriter j i pj .running hj' h1 wj rfl) fun e => hij e.symm
    · exact iff_of_true htag ⟨i, .wrote v, get?_set_self h1 _, rfl⟩
    · intro h
      exact absurd (htag.symm.trans h) (by decide)
    · intro j hj
      have hj' : (s.threads.set i (Phase.wrote v)).get? j = some .running := hj
      by_cases hij : i = j
      · rw [← hij, get?_set_self h1] at hj'
        exact absurd hj' (by simp)
      · rw [List.get?_set_ne _ _ hij] at hj'
        exact absurd (hI.uniqueWriter j i .running .running hj' h1 rfl rfl) fun e => hij e.symm
    · intro j w hj
      have hj' : (s.threads.set i (Phase.wrote v)).get? j = some (.wrote w) := hj
      by_cases hij : i = j
      · rw [← hij, get?_set_self h1] at hj'
        cases hj'
        rfl
      · rw [List.get?_set_ne _ _ hij] at hj'
        exact absurd (hI.uniqueWriter j i (.wrote w) .running hj' h1 rfl rfl) fun e => hij e.symm
    · intro j r hj
      have hj' : (s.threads.set i (Phase.wrote v)).get? j = some (.done r) := hj
      by_cases hij : i = j
      · rw [← hij, get?_set_self h1] at hj'
        exact absurd hj' (by simp)
      · rw [List.get?_set_ne _ _ hij] at hj'
        obtain ⟨ht, -⟩ := hI.doneSlot j r hj'
        exact absurd (htag.symm.trans ht) (by decide)
    · intro h
      exact absurd (htag.symm.trans h) (by decide)
    · intro h
      exact absurd h (by simp)
    · intro w hw
      show s.succ + 1 = 1
      omega
    · have hc := countP_set_get? Phase.isRunning h1 (Phase.wrote v)
      simp [Phase.isRunning] at hc
      have he := hI.invokedEq
      unfold SysState.nRunning at he ⊢
      show s.invoked = s.succ + 1 + s.abrt + (s.threads.set i (Phase.wrote v)).countP Phase.isRunning
      omega
  | prodAbort h1 =>
    have htag : s.tag = IN_PROGRESS := hI.writerTag h1 rfl
    have hslot := hI.runningSlot i h1
    have hsucc := hI.succZero hslot
    refine ⟨show UNINIT ≤ 2 by decide, ?_, ?_, ?_, ?_, ?_, ?_, ?_, ?_, ?_, ?_⟩
    · intro j k pj pk hj hk wj wk
      have hj' : (s.threads.set i Phase.aborted).get? j = some pj := hj
      by_cases hij : i = j
      · rw [← hij, get?_set_self h1] at hj'
        cases hj'
        simp [Phase.isWriter] at wj
      · rw [List.get?_set_ne _ _ hij] at hj'
        exact absurd (hI.uniqueWriter j i pj .running hj' h1 wj rfl) fun e => hij e.symm
    · refine iff_of_false (show ¬(UNINIT = IN_PROGRESS) by decide) ?_
      rintro ⟨j, p, hj, hw⟩
      have hj' : (s.threads.set i Phase.aborted).get? j = some p := hj
      by_cases hij : i = j
      · rw [← hij, get?_set_self h1] at hj'
        cases hj'
        simp [Phase.isWriter] at hw
      · rw [List.get?_set_ne _ _ hij] at hj'
        exact absurd (hI.uniqueWriter j i p .running hj' h1 hw rfl) fun e => hij e.symm
    · intro h
      exact hslot
    · intro j hj
      exact hslot
    · intro j w hj
      have hj' : (s.threads.set i Phase.aborted).get? j = some (.wrote w) := hj
      by_cases hij : i = j
      · rw [← hij, get?_set_self h1] at hj'
        exact absurd hj' (by simp)
      · rw [List.get?_set_ne _ _ hij] at hj'
        exact absurd (hI.uniqueWriter j i (.wrote w) .running hj' h1 rfl rfl) fun e => hij e.symm
    · intro j r hj
      have hj' : (s.threads.set i Phase.aborted).get? j = some (.done r) := hj
      by_cases hij : i = j
      · rw [← hij, get?_set_self h1] at hj'
        exact absurd hj' (by simp)
      · rw [List.get?_set_ne _ _ hij] at hj'
        obtain ⟨ht, -⟩ := hI.doneSlot j r hj'
        exact absurd (htag.symm.trans ht) (by decide)
    · intro h
      exact absurd h (show ¬(UNINIT = INIT) by decide)
    · intro h
      exact hsucc
    · intro w hw
      have hw' : s.slot = some w := hw
      rw [hslot] at hw'
      exact absurd hw' (by simp)
    · have hc := countP_set_get? Phase.isRunning h1 Phase.aborted
      simp [Phase.isRunning] at hc
      have he := hI.invokedEq
      unfold SysState.nRunning at he ⊢
      show s.invoked = s.succ + (s.abrt + 1) + (s.threads.set i Phase.aborted).countP Phase.isRunning
      omega
  | publish v h1 =>
    have htag : s.tag = IN_PROGRESS := hI.writerTag h1 rfl
    have hv : s.slot = some v := hI.wroteSlot i v h1
    have hsucc := hI.succOne v hv
    refine ⟨show INIT ≤ 2 by decide, ?_, ?_, ?_, ?_, ?_, ?_, ?_, ?_, ?_, ?_⟩
    · intro j k pj pk hj hk wj wk
      have hj' : (s.threads.set i (Phase.done (some v))).get? j = some pj := hj
      by_cases hij : i = j
      · rw [← hij, get?_set_self h1] at hj'
        cases hj'
        simp [Phase.isWriter] at wj
      · rw [List.get?_set_ne _ _ hij] at hj'
        exact absurd (hI.uniqueWriter j i pj (.wrote v) hj' h1 wj rfl) fun e => hij e.symm
    · refine iff_of_false (show ¬(INIT = IN_PROGRESS) by decide) ?_
      rintro ⟨j, p, hj, hw⟩
      have hj' : (s.threads.set i (Phase.done (some v))).get? j = some p := hj
      by_cases hij : i = j
      · rw [← hij, get?_set_self h1] at hj'
        cases hj'
        simp [Phase.isWriter] at hw
      · rw [List.get?_set_ne _ _ hij] at hj'
        exact absurd (hI.uniqueWriter j i p (.wrote v) hj' h1 hw rfl) fun e => hij e.symm
    · intro h
      exact absurd h (show ¬(INIT = UNINIT) by decide)
    · intro j hj
      have hj' : (s.threads.set i (Phase.done (some v))).get? j = some .running := hj
      by_cases hij : i = j
      · rw [← hij, get?_set_self h1] at hj'
        exact absurd hj' (by simp)
      · rw [List.get?_set_ne _ _ hij] at hj'
        exact absurd (hI.uniqueWriter j i .running (.wrote v) hj' h1 rfl rfl) fun e => hij e.symm
    · intro j w hj
      have hj' : (s.threads.set i (Phase.done (some v))).get? j = some (.wrote w) := hj
      by_cases hij : i = j
      · rw [← hij, get?_set_self h1] at hj'
        exact absurd hj' (by simp)
      · rw [List.get?_set_ne _ _ hij] at hj'
        exact absurd (hI.uniqueWriter j i (.wrote w) (.wrote v) hj' h1 rfl rfl) fun e => hij e.symm
    · intro j r hj
      have hj' : (s.threads.set i (Phase.done (some v))).get? j = some (.done r) := hj
      by_cases hij : i = j
      · rw [← hij, get?_set_self h1] at hj'
        cases hj'
        exact ⟨rfl, hv.symm⟩
      · rw [List.get?_set_ne _ _ hij] at hj'
        obtain ⟨ht, -⟩ := hI.doneSlot j r hj'
        exact absurd (htag.symm.trans ht) (by decide)
    · intro h
      exact ⟨v, hv⟩
    · intro h
      have h' : s.slot = none := h
      rw [hv] at h'
      exact absurd h' (by simp)
    · intro w hw
      exact hsucc
    · have hc := countP_set_get? Phase.isRunning h1 (Phase.done (some v))
      simp [Phase.isRunning] at hc
      have he := hI.invokedEq
      unfold SysState.nRunning at he ⊢
      show s.invoked = s.succ + s.abrt + (s.threads.set i (Phase.done (some v))).countP Phase.isRunning
      omega

theorem reach_inv {T : Type} {n : Nat} {s : SysState T}
    (h : Reach T (initState T n) s) : Inv s := by
  induction h with
  | refl => exact inv_initState T n
  | tail _ hstep ih => exact inv_step ih hstep

/-- C1: in every state reachable from a fresh cell with `n` concurrent callers
of `get_or_init`, at most one producer invocation has completed successfully;
every producer invocation is accounted as the (at most one) successful run,
an aborted run, or a run still in flight; once any caller has returned, the
successful run count is exactly one; and all callers that returned observed
one and the same initialized value (the slot's content). -/
theorem getOrInit_single_initialization {T : Type} {n : Nat} {s : SysState T}
    (h : Reach T (initState T n) s) :
    s.succ ≤ 1 ∧
    s.invoked = s.succ + s.abrt + s.nRunning ∧
    (∀ i r, s.threads.get? i = some (.done r) → s.succ = 1 ∧ r = s.slot) ∧
    (∀ i j ri rj, s.threads.get? i = some (.done ri) →
      s.threads.get? j = some (.done rj) → ri = rj ∧ ri ≠ none) := by
  have hI := reach_inv h
  have hsucc : s.succ ≤ 1 := by
    cases hslot : s.slot with
    | none => rw [hI.succZero hslot]; omega
    | some v => rw [hI.succOne v hslot]
  have hdone : ∀ i r, s.threads.get? i = some (.done r) → s.succ = 1 ∧ r = s.slot := by
    intro i r hi
    obtain ⟨ht, hr⟩ := hI.doneSlot i r hi
    obtain ⟨v, hv⟩ := hI.initSlot ht
    exact ⟨hI.succOne v hv, hr⟩
  refine ⟨hsucc, hI.invokedEq, hdone, ?_⟩
  intro i j ri rj hi hj
  obtain ⟨-, hri⟩ := hdone i ri hi
  obtain ⟨-, hrj⟩ := hdone j rj hj
  obtain ⟨ht, -⟩ := hI.doneSlot i ri hi
  obtain ⟨v, hv⟩ := hI.initSlot ht
  subst hri hrj
  simp [hv]

theorem reach_oneDone (v : Nat) :
    Reach Nat (initState Nat 2)
      ⟨INIT, some v, [Phase.done (some v), Phase.start], 1, 1, 0⟩ := by
  have t1 := Reach.single (Step.casWin (T := Nat) 0 (initState Nat 2) rfl rfl)
  have t2 := Reach.tail t1 (Step.prodOk 0 _ v rfl)
  have t3 := Reach.tail t2 (Step.publish 0 _ v rfl)
  exact t3

theorem getOrInit_single_initialization_witness :
    (⟨INIT, some 42, [Phase.done (some 42), Phase.done (some 42)], 1, 1, 0⟩ :
      SysState Nat).succ = 1 := by
  have hre := Reach.tail (reach_oneDone 42) (Step.casFailInit 1 _ rfl rfl)
  exact ((getOrInit_single_initialization hre).2.2.1 0 (some 42) rfl).1

/-- C2: once some call to `get_or_init` has completed successfully (the tag is
`INIT`), the slot holds a value, and any thread still at the top of the retry
loop takes exactly one step: the CAS fails with `Err(INIT)` and the call
returns a reference to the existing value immediately — the producer is not
invoked (`invoked` is unchanged), the slot and tag are unchanged. -/
theorem getOrInit_idempotent_after_success {T : Type} {n i : Nat} {s s' : SysState T}
    (hre : Reach T (initState T n) s) (htag : s.tag = INIT)
    (hstart : s.threads.get? i = some .start) (hstep : Step T i s s') :
    (∃ v, s.slot = some v) ∧
    s'.threads.get? i = some (.done s.slot) ∧
    s'.slot = s.slot ∧ s'.tag = INIT ∧ s'.invoked = s.invoked ∧ s'.succ = s.succ := by
  have hI := reach_inv hre
  cases hstep with
  | casWin h1 h2 =>
    exact absurd (htag.symm.trans h2) (by decide)
  | casFailInit h1 h2 =>
    exact ⟨hI.initSlot htag, get?_set_self h1 _, rfl, htag, rfl, rfl⟩
  | casSpin h1 h2 =>
    rcases h2 with h2 | h2
    · exact absurd (htag.symm.trans h2) (by decide)
    · exact absurd (htag.symm.trans h2) (by decide)
  | prodOk v h1 =>
    exact absurd (hstart.symm.trans h1) (by simp)
  | prodAbort h1 =>
    exact absurd (hstart.symm.trans h1) (by simp)
  | publish v h1 =>
    exact absurd (hstart.symm.trans h1) (by simp)

theorem getOrInit_idempotent_after_success_witness :
    ((⟨INIT, some 7, [Phase.done (some 7), Phase.start], 1, 1, 0⟩ :
        SysState Nat).threads.set 1
          (Phase.done (⟨INIT, some 7, [Phase.done (some 7), Phase.start], 1, 1, 0⟩ :
            SysState Nat).slot)).get? 1 = some (Phase.done (some 7)) := by
  have h := getOrInit_idempotent_after_success (i := 1) (reach_oneDone 7) rfl rfl
    (Step.casFailInit 1 _ rfl rfl)
  exact h.2.1

/-- C3: in any reachable state in which thread `i` is inside the producer (so
the tag is `IN_PROGRESS`), if the producer aborts, the very step that
propagates the panic restores the tag to `UNINIT` with the slot still
uninitialized (the cell is not poisoned); afterwards a waiting caller `j` can
win the CAS — invoking its producer anew — and drive the cell to `INIT`,
returning a reference to the freshly produced value. -/
theorem getOrInit_rollback_on_abort {T : Type} {n i j : Nat} {s : SysState T}
    (hre : Reach T (initState T n) s)
    (hrun : s.threads.get? i = some .running)
    (hstart : s.threads.get? j = some .start) :
    s.tag = IN_PROGRESS ∧
    ∀ v : T, ∃ s1 s4,
      Step T i s s1 ∧ s1.tag = UNINIT ∧ s1.slot = none ∧
      s1.threads.get? i = some .aborted ∧
      Reach T s1 s4 ∧ s4.invoked = s.invoked + 1 ∧
      s4.tag = INIT ∧ s4.slot = some v ∧
      s4.threads.get? j = some (.done (some v)) := by
  have hI := reach_inv hre
  have hij : i ≠ j := by
    intro e
    rw [e, hstart] at hrun
    exact absurd hrun (by simp)
  refine ⟨hI.writerTag hrun rfl, ?_⟩
  intro v
  have hstep1 := Step.prodAbort i s hrun
  have hj1 : (s.threads.set i Phase.aborted).get? j = some .start := by
    rw [List.get?_set_ne _ _ hij]
    exact hstart
  have hstep2 := Step.casWin j { s with tag := UNINIT, threads := s.threads.set i Phase.aborted, abrt := s.abrt + 1 } hj1 rfl
  have hj2 : ((s.threads.set i Phase.aborted).set j Phase.running).get? j
      = some .running := get?_set_self hj1 _
  have hstep3 := Step.prodOk j ⟨IN_PROGRESS, s.slot, (s.threads.set i Phase.aborted).set j Phase.running, s.invoked + 1, s.succ, s.abrt + 1⟩ v hj2
  have hj3 : (((s.threads.set i Phase.aborted).set j Phase.running).set j
      (Phase.wrote v)).get? j = some (.wrote v) := get?_set_self hj2 _
  have hstep4 := Step.publish j ⟨IN_PROGRESS, some v, ((s.threads.set i Phase.aborted).set j Phase.running).set j (Phase.wrote v), s.invoked + 1, s.succ + 1, s.abrt + 1⟩ v hj3
  refine ⟨_, _, hstep1, rfl, hI.runningSlot i hrun, get?_set_self hrun _,
    Reach.tail (Reach.tail (Reach.single hstep2) hstep3) hstep4, rfl, rfl, rfl,
    get?_set_self hj3 _⟩

theorem getOrInit_rollback_on_abort_witness :
    (⟨IN_PROGRESS, none, [Phase.running, Phase.start], 1, 0, 0⟩ :
      SysState Nat).tag = IN_PROGRESS := by
  have hre := Reach.single (Step.casWin (T := Nat) 0 (initState Nat 2) rfl rfl)
  exact (getOrInit_rollback_on_abort (i := 0) (j := 1) hre rfl rfl).1

/-- C4: in every reachable state, a tag of `INIT` guarantees the slot holds a
fully initialized value; every reference handed out by `get_or_init` reads
exactly that value (never an uninitialized or partially written slot); the
only step that writes the slot is performed by a thread that is inside the
producer while the tag is the exclusive `IN_PROGRESS` state; and at most one
thread ever holds that transitional state. -/
theorem onceCell_slot_safety {T : Type} {n : Nat} {s : SysState T}
    (hre : Reach T (initState T n) s) :
    (s.tag = INIT → ∃ v, s.slot = some v) ∧
    (∀ i r, s.threads.get? i = some (.done r) → r = s.slot ∧ r ≠ none) ∧
    (∀ i s', Step T i s s' → s'.slot ≠ s.slot →
      s.tag = IN_PROGRESS ∧ s.threads.get? i = some .running) ∧
    (∀ i j pi pj, s.threads.get? i = some pi → s.threads.get? j = some pj →
      pi.isWriter = true → pj.isWriter = true → i = j) := by
  have hI := reach_inv hre
  refine ⟨hI.initSlot, ?_, ?_, hI.uniqueWriter⟩
  · intro i r hi
    obtain ⟨ht, hr⟩ := hI.doneSlot i r hi
    obtain ⟨v, hv⟩ := hI.initSlot ht
    subst hr
    simp [hv]
  · intro i s' hstep hne
    cases hstep with
    | casWin h1 h2 => exact absurd rfl hne
    | casFailInit h1 h2 => exact absurd rfl hne
    | casSpin h1 h2 => exact absurd rfl hne
    | prodOk v h1 => exact ⟨hI.writerTag h1 rfl, h1⟩
    | prodAbort h1 => exact absurd rfl hne
    | publish v h1 => exact absurd rfl hne

theorem onceCell_slot_safety_witness :
    some 5 = (⟨INIT, some 5, [Phase.done (some 5), Phase.start], 1, 1, 0⟩ :
      SysState Nat).slot ∧ (some 5 : Option Nat) ≠ none := by
  exact (onceCell_slot_safety (reach_oneDone 5)).2.1 0 (some 5) rfl

/-- C5: `get_or_init` never yields an error value: every caller that returned
obtained a reference to an initialized value (`done r` implies `r ≠ none`,
i.e. the returned reference is valid), and from every reachable state every
thread still in the retry loop can complete in finitely many steps with a
valid reference — the only alternative being that its own producer aborts and
that abort propagates (the `aborted` phase). -/
theorem getOrInit_no_error_and_terminates {T : Type} {n : Nat} {s : SysState T}
    (hre : Reach T (initState T n) s) :
    (∀ i r, s.threads.get? i = some (.done r) → r ≠ none) ∧
    (∀ i, s.threads.get? i = some .start → ∀ v : T,
      ∃ s' w, Reach T s s' ∧ s'.threads.get? i = some (.done (some w))) := by
  have hI := reach_inv hre
  constructor
  · intro i r hi
    obtain ⟨ht, hr⟩ := hI.doneSlot i r hi
    obtain ⟨v, hv⟩ := hI.initSlot ht
    subst hr
    simp [hv]
  · intro i hi v
    rcases (show s.tag = UNINIT ∨ s.tag = IN_PROGRESS ∨ s.tag = INIT by
      have := hI.tagLe
      unfold UNINIT IN_PROGRESS INIT
      omega) with htag | htag | htag
    · -- fresh cell: thread i wins the CAS, produces, publishes, returns.
      have hstep1 := Step.casWin i s hi htag
      have hi1 : (s.threads.set i Phase.running).get? i = some .running :=
        get?_set_self hi _
      have hstep2 := Step.prodOk i ⟨IN_PROGRESS, s.slot, s.threads.set i Phase.running, s.invoked + 1, s.succ, s.abrt⟩ v hi1
      have hi2 : ((s.threads.set i Phase.running).set i (Phase.wrote v)).get? i
          = some (.wrote v) := get?_set_self hi1 _
      have hstep3 := Step.publish i ⟨IN_PROGRESS, some v, (s.threads.set i Phase.running).set i (Phase.wrote v), s.invoked + 1, s.succ + 1, s.abrt⟩ v hi2
      exact ⟨_, v, Reach.tail (Reach.tail (Reach.single hstep1) hstep2) hstep3,
        get?_set_self hi2 _⟩
    · -- another thread holds the write permission: it finishes, then i reads.
      obtain ⟨j, p, hj, hw⟩ := hI.tagIffWriter.mp htag
      have hij : j ≠ i := by
        intro e
        rw [e, hi] at hj
        cases p <;> simp_all [Phase.isWriter]
      cases p with
      | running =>
        have hstep1 := Step.prodOk j s v hj
        have hj1 : ((s.threads.set j (Phase.wrote v))).get? j = some (.wrote v) :=
          get?_set_self hj _
        have hstep2 := Step.publish j ⟨s.tag, some v, s.threads.set j (Phase.wrote v), s.invoked, s.succ + 1, s.abrt⟩ v hj1
        have hi2 : (((s.threads.set j (Phase.wrote v)).set j
            (Phase.done (some v)))).get? i = some .start := by
          rw [List.get?_set_ne _ _ hij, List.get?_set_ne _ _ hij]
          exact hi
        have hstep3 := Step.casFailInit i ⟨INIT, some v, (s.threads.set j (Phase.wrote v)).set j (Phase.done (some v)), s.invoked, s.succ + 1, s.abrt⟩ hi2 rfl
        exact ⟨_, v, Reach.tail (Reach.tail (Reach.single hstep1) hstep2) hstep3,
          get?_set_self hi2 _⟩
      | wrote u =>
        have hstep1 := Step.publish j s u hj
        have hi1 : ((s.threads.set j (Phase.done (some u)))).get? i = some .start := by
          rw [List.get?_set_ne _ _ hij]
          exact hi
        have hstep2 := Step.casFailInit i ⟨INIT, s.slot, s.threads.set j (Phase.done (some u)), s.invoked, s.succ, s.abrt⟩ hi1 rfl
        have hu : s.slot = some u := hI.wroteSlot j u hj
        refine ⟨_, u, Reach.tail (Reach.single hstep1) hstep2, ?_⟩
        show ((s.threads.set j (Phase.done (some u))).set i
            (Phase.done s.slot)).get? i = some (Phase.done (some u))
        rw [hu]
        exact get?_set_self hi1 _
      | start => simp [Phase.isWriter] at hw
      | done r => simp [Phase.isWriter] at hw
      | aborted => simp [Phase.isWriter] at hw
    · -- already initialized: one CAS failure returns the stored value.
      obtain ⟨u, hu⟩ := hI.initSlot htag
      have hstep1 := Step.casFailInit i s hi htag
      refine ⟨_, u, Reach.single hstep1, ?_⟩
      show (s.threads.set i (Phase.done s.slot)).get? i = some (Phase.done (some u))
      rw [hu]
      exact get?_set_self hi _

theorem getOrInit_no_error_and_terminates_witness :
    (some 11 : Option Nat) ≠ none := by
  exact (getOrInit_no_error_and_terminates (reach_oneDone 11)).1 0 (some 11) rfl

/-- C6: in every reachable state the tag is one of the three declared values
`UNINIT`, `IN_PROGRESS`, `INIT`; consequently the guard of the catch-all
`Err(_)` arm of the `match` in `get_or_init` is false in every reachable
state, so the `unreachable_unchecked` hint in that arm is never executed. -/
theorem onceCell_tag_in_range {T : Type} {n : Nat} {s : SysState T}
    (hre : Reach T (initState T n) s) :
    (s.tag = UNINIT ∨ s.tag = IN_PROGRESS ∨ s.tag = INIT) ∧
    ¬(s.tag ≠ UNINIT ∧ s.tag ≠ IN_PROGRESS ∧ s.tag ≠ INIT) := by
  have := (reach_inv hre).tagLe
  unfold UNINIT IN_PROGRESS INIT
  constructor
  · omega
  · intro hcon
    obtain ⟨h0, h1, h2⟩ := hcon
    omega

theorem onceCell_tag_in_range_witness :
    (initState Nat 3).tag = UNINIT ∨ (initState Nat 3).tag = IN_PROGRESS ∨
      (initState Nat 3).tag = INIT :=
  (onceCell_tag_in_range (Reach.refl (initState Nat 3))).1

theorem ArgsIter.drain_next (it : ArgsIter) :
    it.drain = match it.next with
      | none => []
      | some xit => xit.1 :: xit.2.drain := by
  cases it with
  | mk inner => cases inner <;> rfl

/-- C7: the argument-vector consumer's non-panicking indexed access
(`(&ARGS).into_iter().nth(i)`, the non-panicking counterpart of
`Index<usize>`): creating the iterator forces initialization of the cache,
and for every index the access yields the argument at that index when it is
in range and `none` (the absence marker) when it is out of range. -/
theorem args_nonpanicking_get (argv : List String) (i : Nat) :
    ((Args.mk none).intoIter argv).1.cache = some argv ∧
    ((Args.mk none).intoIter argv).2.nth i = argv.get? i ∧
    (argv.length ≤ i → ((Args.mk none).intoIter argv).2.nth i = none) ∧
    (∀ h : i < argv.length, ((Args.mk none).intoIter argv).2.nth i = some (argv.get ⟨i, h⟩)) := by
  refine ⟨rfl, rfl, ?_, ?_⟩
  · intro h
    exact List.get?_eq_none.mpr h
  · intro h
    exact List.get?_eq_get h

theorem args_nonpanicking_get_witness :
    ((Args.mk none).intoIter ["prog", "a"]).2.nth 1 = some "a" ∧
    ((Args.mk none).intoIter ["prog", "a"]).2.nth 5 = none := by
  constructor
  · exact (args_nonpanicking_get ["prog", "a"] 1).2.2.2 (by decide)
  · exact (args_nonpanicking_get ["prog", "a"] 5).2.2.1 (by decide)

/-- C8: iterating over the argument vector is finite and order-preserving —
the sequence the fresh iterator yields is exactly the cached argument list
(so the i-th yielded element is the argument at index i), and recreating the
iterator from the already-forced cache yields the identical iterator, so the
sequence is restartable and the same each time. -/
theorem args_iteration_order (argv : List String) :
    ((Args.mk none).intoIter argv).2.drain = argv ∧
    (∀ i, ((Args.mk none).intoIter argv).2.nth i = argv.get? i) ∧
    (((Args.mk none).intoIter argv).1.intoIter argv).2 = ((Args.mk none).intoIter argv).2 := by
  exact ⟨rfl, fun i => rfl, rfl⟩

theorem asI32_eq_of_emod {x z : Int} (h1 : -2147483648 ≤ z) (h2 : z ≤ 2147483647)
    (hx : x % 4294967296 = z % 4294967296) : asI32 x = z := by
  unfold asI32 wrap32
  omega

theorem drawIn_in_bounds {mn mx raw : Int}
    (hmn1 : I32_MIN ≤ mn) (hmx1 : mx ≤ I32_MAX)
    (hraw1 : I32_MIN ≤ raw) (hraw2 : raw ≤ I32_MAX)
    (hle : mn ≤ mx) :
    mn ≤ drawIn mn mx raw ∧ drawIn mn mx raw ≤ mx := by
  unfold drawIn
  by_cases hfull : mn = I32_MIN ∧ mx = I32_MAX
  · rw [if_pos hfull]
    obtain ⟨h1, h2⟩ := hfull
    subst h1 h2
    exact ⟨hraw1, hraw2⟩
  · rw [if_neg hfull]
    have hmna : (-2147483648 : Int) ≤ mn := hmn1
    have hmxa : mx ≤ (2147483647 : Int) := hmx1
    have hne : ¬(mn = (-2147483648 : Int) ∧ mx = (2147483647 : Int)) := hfull
    have hsmall : mx - mn + 1 ≤ (4294967295 : Int) := by
      rcases not_and_or.mp hne with h | h <;> omega
    have hrs : wrap32 (wrap32 (wrap32 mx - wrap32 mn) + 1) = mx - mn + 1 := by
      unfold wrap32
      omega
    rw [hrs]
    have hpos : (0 : Int) < mx - mn + 1 := by omega
    have hb1 : 0 ≤ wrap32 raw % (mx - mn + 1) := Int.emod_nonneg _ (by omega)
    have hb2 : wrap32 raw % (mx - mn + 1) < mx - mn + 1 := Int.emod_lt_of_pos _ hpos
    have hval : asI32 (wrap32 raw % (mx - mn + 1) + wrap32 mn)
        = mn + wrap32 raw % (mx - mn + 1) := by
      apply asI32_eq_of_emod
      · omega
      · omega
      · unfold wrap32
        omega
    rw [hval]
    omega

/-- C9: for every i32 range whose normalized bounds (`+1` on an excluded
start, `-1` on an excluded end, `i32::MIN`/`i32::MAX` on unbounded sides)
satisfy `min ≤ max`, `random_number` returns a value `v` with
`min ≤ v ≤ max` — the wrapping `u32` remainder-and-add arithmetic never
leaves the interval — and for an empty range (`min > max`) it panics
(the `assert!`), modeled as `none`. -/
theorem random_number_in_bounds (sb eb : RangeBound) (raw mn mx : Int)
    (hsb : sb.valid) (heb : eb.valid)
    (hraw1 : I32_MIN ≤ raw) (hraw2 : raw ≤ I32_MAX)
    (hmn : startMin sb = some mn) (hmx : endMax eb = some mx) :
    (mn ≤ mx → ∃ v, random_number sb eb raw = some v ∧ mn ≤ v ∧ v ≤ mx) ∧
    (mx < mn → random_number sb eb raw = none) := by
  have hmn1 : I32_MIN ≤ mn := by
    show (-2147483648 : Int) ≤ mn
    cases sb with
    | included n =>
      simp only [startMin, Option.some.injEq] at hmn
      have h2 : (-2147483648 : Int) ≤ n := hsb.1
      omega
    | excluded n =>
      simp only [startMin] at hmn
      split at hmn
      · simp at hmn
      · simp only [Option.some.injEq] at hmn
        have h2 : (-2147483648 : Int) ≤ n := hsb.1
        omega
    | unbounded =>
      simp only [startMin, I32_MIN, Option.some.injEq] at hmn
      omega
  have hmx1 : mx ≤ I32_MAX := by
    show mx ≤ (2147483647 : Int)
    cases eb with
    | included n =>
      simp only [endMax, Option.some.injEq] at hmx
      have h2 : n ≤ (2147483647 : Int) := heb.2
      omega
    | excluded n =>
      simp only [endMax] at hmx
      split at hmx
      · simp at hmx
      · simp only [Option.some.injEq] at hmx
        have h2 : n ≤ (2147483647 : Int) := heb.2
        omega
    | unbounded =>
      simp only [endMax, I32_MAX, Option.some.injEq] at hmx
      omega
  have hre : random_number sb eb raw
      = if mn ≤ mx then some (drawIn mn mx raw) else none := by
    unfold random_number
    rw [hmn, hmx]
  constructor
  · intro hle
    rw [hre, if_pos hle]
    exact ⟨drawIn mn mx raw, rfl, drawIn_in_bounds hmn1 hmx1 hraw1 hraw2 hle⟩
  · intro hlt
    rw [hre, if_neg (by omega)]

theorem random_number_in_bounds_witness :
    random_number (.included 12) (.excluded 15) 100 = some 13 ∧
    (12 : Int) ≤ 13 ∧ (13 : Int) ≤ 14 ∧
    random_number (.included 5) (.excluded 5) 100 = none := by
  obtain ⟨v, hv, h1, h2⟩ := (random_number_in_bounds (.included 12) (.excluded 15) 100 12 14
    (by exact ⟨by decide, by decide⟩) (by exact ⟨by decide, by decide⟩)
    (by decide) (by decide) (by decide) (by decide)).1 (by decide)
  have hd : random_number (.included 12) (.excluded 15) 100 = some 13 := by decide
  have hv13 : v = 13 := by
    have h3 := hv.symm.trans hd
    exact (Option.some.injEq _ _ ▸ h3)
  subst hv13
  exact ⟨hd, h1, h2, (random_number_in_bounds (.included 5) (.excluded 5) 100 5 4
    (by exact ⟨by decide, by decide⟩) (by exact ⟨by decide, by decide⟩)
    (by decide) (by decide) (by decide) (by decide)).2 (by decide)⟩

/-- C10 fails on the code: the line `"  éé\n"` (two spaces, twice U+00E9,
then a newline) contains non-whitespace characters, so
the claim requires `read_line` to return it fully trimmed (`"éé"`, bytes
`[195, 169, 195, 169]`); instead the pipeline panics (`none`): after
`copy_within`, byte `len - start = 5` of the buffer is the UTF-8 continuation
byte `0xA9`, so `result.truncate(result.len() - start)` is called off a
character boundary.  The all-whitespace part of the claim does hold on this
model: `" \n"` is returned unchanged. -/
theorem read_line_truncate_panic :
    read_line [' ', ' ', 'é', 'é', '\n'] = none ∧
    rustIsWhitespace 'é' = false ∧
    read_line [' ', '\n'] = some [32, 10] := by
  refine ⟨by decide, by decide, by decide⟩

end Ftkit
